import Mathlib

/-!
Verification development for the simulation kernel of the nodari repository:
the entity tree (core/simnode.py), its event bus and update propagation, and
the interval scheduler (systems/scheduler.py).  Python objects are embedded
shallowly: nodes are identified by natural-number ids, object identity checks
of the source become id equality (justified wherever the development assumes
or proves distinctness of ids), Python dict fields become association lists,
float time quantities become rationals (all the concrete time values we
evaluate are exactly representable), and methods become pure functions that
return the new state.
-/

namespace Nodari

/-- Association-list lookup, modelling Python fields kept in a dict keyed by
node id or event id. -/
def lookupA {α : Type} : List (Nat × α) → Nat → Option α
  | [], _ => none
  | (k, v) :: rest, key => if k = key then some v else lookupA rest key

/-- Association-list update: replaces the first binding of the key, appends a
new binding when absent. -/
def setA {α : Type} : List (Nat × α) → Nat → α → List (Nat × α)
  | [], key, v => [(key, v)]
  | (k, w) :: rest, key, v =>
      if k = key then (key, v) :: rest else (k, w) :: setA rest key v

/-! ## Scheduler (systems/scheduler.py)

A task is the dataclass `_Task(node, interval, acc)`.  The scheduler state
holds the task list and, standing in for the `_manual_update` attribute each
`SimNode` object carries, an association list of manual-update flags. -/

structure STask where
  node : Nat
  interval : ℚ
  acc : ℚ
deriving DecidableEq, Repr

structure Sched where
  tasks : List STask
  flags : List (Nat × Bool)
deriving DecidableEq, Repr

/-- SchedulerSystem.schedule: sets the manual-update flag of the node and
appends a task with accumulator zero.  The source performs no validation of
the interval whatsoever. -/
def schedule (st : Sched) (node : Nat) (interval : ℚ) : Sched :=
  ⟨st.tasks ++ [⟨node, interval, 0⟩], setA st.flags node true⟩

/-- Python `del live[i]`: removal at an index, IndexError (`none`) when the
index is out of range. -/
def delAt {α : Type} (l : List α) (i : Nat) : Option (List α) :=
  if i < l.length then some (l.eraseIdx i) else none

/-- The loop body of SchedulerSystem.unschedule: iterate over a snapshot copy
of the task list (`enumerate(list(self._tasks))`) while deleting by index from
the live list; `none` models an uncaught IndexError. -/
def unschedLoop (node : Nat) : List STask → Nat → List STask → Option (List STask)
  | [], _, live => some live
  | t :: rest, i, live =>
      if t.node = node then
        match delAt live i with
        | none => none
        | some live2 => unschedLoop node rest (i + 1) live2
      else unschedLoop node rest (i + 1) live

/-- SchedulerSystem.unschedule: run the deletion loop, then clear the flag.
When the loop raises (stale index), the exception propagates before the flag
assignment line runs, so the state is not produced at all. -/
def unschedule (st : Sched) (node : Nat) : Option Sched :=
  match unschedLoop node st.tasks 0 st.tasks with
  | none => none
  | some ts => some ⟨ts, setA st.flags node false⟩

/-- The catch-up while-loop of SchedulerSystem.update for one task, with
explicit fuel: `while acc >= interval: acc -= interval; node.update(interval)`.
Returns the final accumulator and the number of update calls made, or `none`
when the fuel runs out (the loop did not terminate within `fuel` iterations). -/
def catchUp : Nat → ℚ → ℚ → Option (ℚ × Nat)
  | 0, interval, acc => if acc < interval then some (acc, 0) else none
  | fuel + 1, interval, acc =>
      if acc < interval then some (acc, 0)
      else
        match catchUp fuel interval (acc - interval) with
        | none => none
        | some (a, k) => some (a, k + 1)

/-- SchedulerSystem.update over the task list: each task gets `dt` added to
its accumulator and is then caught up; the recorded calls are the
`task.node.update(task.interval)` invocations in order.  The trailing
`super().update(dt)` of the source only recurses into the own children of
the scheduler node, none of which is created by `schedule` (and a scheduled child
would carry the manual flag and be skipped), so it issues no update call to a
scheduled target and is not modelled further. -/
def schedUpdate (fuel : Nat) (dt : ℚ) :
    List STask → Option (List STask × List (Nat × ℚ))
  | [] => some ([], [])
  | t :: rest =>
      match catchUp fuel t.interval (t.acc + dt) with
      | none => none
      | some (a, k) =>
          match schedUpdate fuel dt rest with
          | none => none
          | some (ts, calls) =>
              some (⟨t.node, t.interval, a⟩ :: ts,
                    List.replicate k (t.node, t.interval) ++ calls)

/-! ## The entity tree and its traversals (SimNode.emit / SimNode.update)

For the two whole-tree traversal claims the tree is static (no handler
mutates it; mutation is the business of the deferral claim further down), so
it is embedded as an inductive value: a node id, the manual-update flag, and
the list of children.  The Python identity test `child is not origin` becomes
id inequality, which coincides with it whenever the ids of the tree are
distinct — the tree invariant of the spec, and a hypothesis or a checked
concrete fact everywhere it matters below. -/

inductive SimT where
  | mk (id : Nat) (manual : Bool) (kids : List SimT)

def SimT.id : SimT → Nat
  | .mk i _ _ => i

def SimT.manual : SimT → Bool
  | .mk _ m _ => m

def SimT.kids : SimT → List SimT
  | .mk _ _ k => k

mutual
/-- All node ids of a tree in preorder. -/
def idsOf : SimT → List Nat
  | .mk i _ kids => i :: idsOfList kids
def idsOfList : List SimT → List Nat
  | [] => []
  | t :: ts => idsOf t ++ idsOfList ts
end

mutual
/-- Visits of `emit(event, payload, direction="down", origin=o)` reaching this
subtree: the parent only recurses into children that are not the origin, which
is folded into a guard at entry; a visited node runs its local handlers (is
recorded) and fans out into its own children under the same guard. -/
def emitDown (o : Nat) : SimT → List Nat
  | .mk i _ kids => if i = o then [] else i :: emitDownList o kids
def emitDownList (o : Nat) : List SimT → List Nat
  | [] => []
  | t :: ts => emitDown o t ++ emitDownList o ts
end

/-- One ancestor level of the position of the emitter inside the tree: the
ancestor id and flag, and the sibling subtrees on both sides of the branch
the emitter sits in.  A full position is the list of levels, innermost
first. -/
structure Frame where
  aid : Nat
  amanual : Bool
  before : List SimT
  after : List SimT

/-- Rebuild the whole tree from a subtree and its position. -/
def plug : SimT → List Frame → SimT
  | t, [] => t
  | t, f :: fs => plug (.mk f.aid f.amanual (f.before ++ t :: f.after)) fs

/-- The ancestor part of an `Up` emission whose origin is `o`: each ancestor
runs its local handlers, fans `Down` into all of its children except the
origin node (`child is not origin` — only the original emitter is excluded,
not the branch the walk came from), and passes the emission to its parent. -/
def upPhase (o : Nat) : SimT → List Frame → List Nat
  | _, [] => []
  | s, f :: fs =>
      (f.aid :: emitDownList o (f.before ++ s :: f.after))
        ++ upPhase o (.mk f.aid f.amanual (f.before ++ s :: f.after)) fs

/-- All visits of `e.emit(event, direction="up")` with no explicit origin:
the emitter runs its handlers and fans down into its whole subtree (at this
first step `origin` is still None, so no child is skipped), then the up walk
through the ancestors with the effective origin `e`. -/
def emitUpVisits (e : SimT) (ctx : List Frame) : List Nat :=
  (e.id :: emitDownList e.id e.kids) ++ upPhase e.id e ctx

mutual
/-- Visits of SimNode.update: each child whose manual-update flag is unset is
updated (recorded) and recurses; a flagged child is skipped entirely,
together with its whole subtree. -/
def updateVisits : SimT → List Nat
  | .mk _ _ kids => updList kids
def updList : List SimT → List Nat
  | [] => []
  | c :: cs => (if c.manual then [] else c.id :: updateVisits c) ++ updList cs
end

/-- d is a strict descendant of t. -/
inductive Desc : SimT → SimT → Prop where
  | head (t d : SimT) : d ∈ t.kids → Desc t d
  | tail (t u d : SimT) : Desc t u → d ∈ u.kids → Desc t d

/-- d is a strict descendant of t reachable through automatically updated
nodes: every node on the path below t, d included, has the manual-update
flag unset. -/
inductive AutoDesc : SimT → SimT → Prop where
  | head (t d : SimT) : d ∈ t.kids → d.manual = false → AutoDesc t d
  | tail (t u d : SimT) : AutoDesc t u → d ∈ u.kids → d.manual = false → AutoDesc t d

/-! ## Entity tree attach (SimNode.add_child)

For the claim about double-parenting, the relevant state is the parent
reference, the children sequences and the dirty marks of all nodes. -/

structure TreeSt where
  parent : List (Nat × Nat)
  childrenOf : List (Nat × List Nat)
  dirty : List Nat
deriving DecidableEq, Repr

/-- The children sequence of a node; a node never attached to holds the empty
sequence (`self.children = []` from the constructor). -/
def kidsOf (st : TreeSt) (n : Nat) : List Nat :=
  (lookupA st.childrenOf n).getD []

/-- SimNode.add_child: sets the parent reference of the child, appends it to
the children of the new parent and marks that parent dirty — nothing else is
touched; in particular no detach from a previous parent happens. -/
def addChild (st : TreeSt) (p c : Nat) : TreeSt :=
  ⟨setA st.parent c p, setA st.childrenOf p (kidsOf st p ++ [c]), p :: st.dirty⟩

/-! ## Event bus subscriptions (SimNode.on_event / off_event / emit, local part)

The `_listeners` dict maps an event name (embedded as a natural number) to a
list of (priority, handler) pairs.  Handler objects are embedded as natural
number ids; `on_event` annotates each with its registration sequence number,
which doubles as its identity, so the Python identity test `hnd is handler`
becomes id equality. -/

structure Listener where
  pri : Int
  reg : Nat
deriving DecidableEq, Repr

/-- The sort order of `listeners.sort(key=lambda item: item[0], reverse=True)`:
a stays no later than b when the priority of b is at most the priority of a. -/
def leByPri (a b : Listener) : Prop := b.pri ≤ a.pri

instance : DecidableRel leByPri := fun a b => Int.decLe b.pri a.pri

/-- Python list.sort is a stable sort; with `key=priority, reverse=True` it is
the stable sort for the total preorder `leByPri` (reverse=True flips the
comparison of unequal keys but keeps equal keys in list order).  Any two
stable sorts of the same total preorder agree on every input, so we embed it
as insertion sort for `leByPri`. -/
def pySort (l : List Listener) : List Listener :=
  List.insertionSort leByPri l

/-- SimNode.on_event: `setdefault` the list for the event, append the new
(priority, handler) entry, then stable-sort by priority descending. -/
def onEvent (l : List Listener) (x : Listener) : List Listener :=
  pySort (l ++ [x])

/-- The deletion loop of SimNode.off_event: delete the first entry whose
handler is identical to the argument, then break; no match leaves the list
as it is. -/
def removeFirst (hid : Nat) : List Listener → List Listener
  | [] => []
  | l :: ls => if l.reg = hid then ls else l :: removeFirst hid ls

/-- SimNode.off_event: `handlers = self._listeners.get(event_name)`; the loop
only runs under `if handlers:`, which is false both for a missing key and for
an empty list.  The list is mutated in place, so the map keeps its binding. -/
def offEvent (m : List (Nat × List Listener)) (ev hid : Nat) :
    List (Nat × List Listener) :=
  match lookupA m ev with
  | none => m
  | some hs => if hs = [] then m else setA m ev (removeFirst hid hs)

/-- Handler bodies for the local-dispatch claims: a handler may subscribe or
unsubscribe handlers on the same node while a dispatch is running. -/
inductive LAct where
  | subscribe (ev : Nat) (pri : Int) (hid : Nat)
  | unsubscribe (ev : Nat) (hid : Nat)

/-- Effect of one handler action on the `_listeners` map, via the source
operations on_event and off_event. -/
def applyLAct (m : List (Nat × List Listener)) : LAct → List (Nat × List Listener)
  | .subscribe ev pri hid => setA m ev (onEvent ((lookupA m ev).getD []) ⟨pri, hid⟩)
  | .unsubscribe ev hid => offEvent m ev hid

/-- The local handler loop of SimNode.emit: it iterates over
`list(self._listeners.get(event_name, []))` — a snapshot copy taken before the
first handler runs — invoking each handler (whose actions mutate the live
map).  Returns the final map and the invocation sequence. -/
def dispatchGo (beh : Nat → List LAct) :
    List Listener → List (Nat × List Listener) → List (Nat × List Listener) × List Nat
  | [], m => (m, [])
  | l :: rest, m =>
      let m2 := (beh l.reg).foldl applyLAct m
      let r := dispatchGo beh rest m2
      (r.1, l.reg :: r.2)

/-- One local dispatch of emit on a node for event `ev`. -/
def dispatch (beh : Nat → List LAct) (m : List (Nat × List Listener)) (ev : Nat) :
    List (Nat × List Listener) × List Nat :=
  dispatchGo beh ((lookupA m ev).getD []) m

/-- The order the spec promises for a subscription list: strictly descending
priority, ties broken by ascending registration sequence. -/
def ordL (a b : Listener) : Prop :=
  b.pri < a.pri ∨ (a.pri = b.pri ∧ a.reg < b.reg)

/-- Stable insertion of a latest-registered entry: it goes behind every entry
of priority at least its own and in front of the first strictly smaller one.
This is what the stable sort of the appended list computes on a sorted list. -/
def insLast (x : Listener) : List Listener → List Listener
  | [] => [x]
  | y :: ys => if leByPri y x then y :: insLast x ys else x :: y :: ys

/-- The registration view: priorities `ps` registered in order receive the
registration sequence numbers i, i+1, ... . -/
def annotate (i : Nat) : List Int → List Listener
  | [] => []
  | p :: ps => ⟨p, i⟩ :: annotate (i + 1) ps

/-- Fold a sequence of on_event registrations over a listener list, numbering
the handlers from `i`. -/
def build (i : Nat) (acc : List Listener) : List Int → List Listener
  | [] => acc
  | p :: ps => build (i + 1) (onEvent acc ⟨p, i⟩) ps

/-- The subscription list obtained by registering handlers with the given
priorities, in that order, on a fresh node. -/
def buildState (regs : List Int) : List Listener :=
  build 0 [] regs

instance : IsAntisymm Listener ordL :=
  ⟨fun a b hab hba => by
    rcases hab with h1 | ⟨h1, h2⟩ <;> rcases hba with h3 | ⟨h3, h4⟩
    · exact absurd h3 (lt_asymm h1)
    · exact absurd h1 (by rw [h3]; exact lt_irrefl _)
    · exact absurd h3 (by rw [h1]; exact lt_irrefl _)
    · exact absurd h4 (Nat.lt_asymm h2)⟩

/-! ## Structural mutation during traversal
(SimNode._get_iter_children / SimNode.emit)

For the deferral claim the children lists, the cached iteration tuples, the
dirty marks and the parent references are mutable state, and event handlers
are data: the body of the handler a node carries is a list of attach
commands, each performed through SimNode.add_child.  The emit interpreter is
fuel-indexed (`none` = fuel exhausted), faithful to the source order: local
handlers first, then one `_get_iter_children` call whose result the fan-out
loop iterates, then — for an `Up` emission — the parent reference as read
after the loop. -/

inductive EAct where
  | attach (p c : Nat)
deriving DecidableEq, Repr

inductive EDir where
  | up
  | down
deriving DecidableEq, Repr

structure EWorld where
  parent : List (Nat × Nat)
  childrenOf : List (Nat × List Nat)
  cache : List (Nat × List Nat)
  dirty : List Nat
  acts : List (Nat × List EAct)
deriving DecidableEq, Repr

/-- One handler command, via SimNode.add_child: set the parent reference,
append to the children list, mark the parent dirty. -/
def applyEAct (w : EWorld) : EAct → EWorld
  | .attach p c =>
      ⟨setA w.parent c p,
       setA w.childrenOf p ((lookupA w.childrenOf p).getD [] ++ [c]),
       w.cache, w.dirty.insert p, w.acts⟩

/-- SimNode._get_iter_children: when the node is dirty, rebuild the cached
tuple from the live children list and clear the mark; otherwise return the
cached tuple (empty for a node never attached to). -/
def getIter (w : EWorld) (n : Nat) : List Nat × EWorld :=
  if n ∈ w.dirty then
    ((lookupA w.childrenOf n).getD [],
     ⟨w.parent, w.childrenOf, setA w.cache n ((lookupA w.childrenOf n).getD []),
      w.dirty.erase n, w.acts⟩)
  else ((lookupA w.cache n).getD [], w)

/-- SimNode.emit over the mutable world: run the local handlers of n, take
the children snapshot once, fold the fan-out over that snapshot (skipping a
child only when it is the raw origin argument), and for direction `Up`
continue to the parent with the effective origin.  Returns the world and the
visit sequence, `none` when the fuel runs out. -/
def emitE : Nat → EWorld → Nat → EDir → Option Nat → Option (EWorld × List Nat)
  | 0, _, _, _, _ => none
  | fuel + 1, w, n, dir, origin =>
      let w1 := ((lookupA w.acts n).getD []).foldl applyEAct w
      let pr := getIter w1 n
      let fanout := pr.1.foldl
        (fun acc c =>
          match acc with
          | none => none
          | some (w2, v) =>
              if origin = some c then some (w2, v)
              else
                match emitE fuel w2 c .down (some (origin.getD n)) with
                | none => none
                | some (w3, v2) => some (w3, v ++ v2))
        (some (pr.2, []))
      match fanout with
      | none => none
      | some (w2, v) =>
          match dir with
          | .down => some (w2, n :: v)
          | .up =>
              match lookupA w2.parent n with
              | none => some (w2, n :: v)
              | some parId =>
                  match emitE fuel w2 parId .up (some (origin.getD n)) with
                  | none => none
                  | some (w3, v2) => some (w3, n :: v ++ v2)

end Nodari

namespace Nodari

open List

theorem lookupA_setA_self {α : Type} (m : List (Nat × α)) (k : Nat) (v : α) :
    lookupA (setA m k v) k = some v := by
  induction m with
  | nil => simp [setA, lookupA]
  | cons hd tl ih =>
      obtain ⟨k0, v0⟩ := hd
      by_cases h : k0 = k
      · simp [setA, lookupA, h]
      · simp [setA, lookupA, h, ih]

theorem lookupA_setA_other {α : Type} (m : List (Nat × α)) (k k2 : Nat) (v : α)
    (h : k ≠ k2) : lookupA (setA m k v) k2 = lookupA m k2 := by
  induction m with
  | nil => simp [setA, lookupA, h]
  | cons hd tl ih =>
      obtain ⟨k0, v0⟩ := hd
      by_cases h0 : k0 = k
      · subst h0
        simp [setA, lookupA, h]
      · simp [setA, lookupA, h0, ih]

/-- Writing back the value a key already holds leaves the list unchanged
(used to model in-place mutation of a list fetched from a dict). -/
theorem setA_lookupA_eq {α : Type} (m : List (Nat × α)) (k : Nat) (v : α)
    (h : lookupA m k = some v) : setA m k v = m := by
  induction m with
  | nil => simp [lookupA] at h
  | cons hd tl ih =>
      obtain ⟨k0, v0⟩ := hd
      by_cases h0 : k0 = k
      · subst h0
        simp [lookupA] at h
        simp [setA, h]
      · simp [lookupA, h0] at h
        simp [setA, h0, ih h]

theorem dispatchGo_invokes_snapshot (beh : Nat → List LAct) :
    ∀ (snap : List Listener) (m : List (Nat × List Listener)),
      (dispatchGo beh snap m).2 = snap.map Listener.reg := by
  intro snap
  induction snap with
  | nil => intro m; rfl
  | cons l rest ih => intro m; simp [dispatchGo, ih]

theorem removeFirst_of_absent (hid : Nat) :
    ∀ hs : List Listener, (∀ l ∈ hs, l.reg ≠ hid) → removeFirst hid hs = hs := by
  intro hs
  induction hs with
  | nil => intro _; rfl
  | cons l ls ih =>
      intro h
      have hne : l.reg ≠ hid := h l (List.mem_cons_self l ls)
      simp [removeFirst, hne, ih (fun x hx => h x (List.mem_cons_of_mem l hx))]

theorem ordL_imp_le {a b : Listener} (h : ordL a b) : leByPri a b := by
  rcases h with h | ⟨h, _⟩
  · exact le_of_lt h
  · exact le_of_eq h.symm

theorem mem_insLast (x z : Listener) :
    ∀ l : List Listener, z ∈ insLast x l ↔ z = x ∨ z ∈ l := by
  intro l
  induction l with
  | nil => simp [insLast]
  | cons y ys ih =>
      by_cases h : leByPri y x
      · simp only [insLast, if_pos h, List.mem_cons, ih]
        tauto
      · simp only [insLast, if_neg h, List.mem_cons]

theorem pySort_sorted_append (x : Listener) :
    ∀ l : List Listener, l.Pairwise leByPri → pySort (l ++ [x]) = insLast x l := by
  intro l
  induction l with
  | nil =>
      intro _
      simp [pySort, List.insertionSort, List.orderedInsert, insLast]
  | cons a l ih =>
      intro hp
      rw [List.pairwise_cons] at hp
      obtain ⟨ha, hl⟩ := hp
      have hstep : pySort ((a :: l) ++ [x])
          = List.orderedInsert leByPri a (insLast x l) := by
        rw [show (a :: l) ++ [x] = a :: (l ++ [x]) from rfl]
        simp only [pySort, List.insertionSort]
        rw [show List.insertionSort leByPri (l ++ [x]) = pySort (l ++ [x]) from rfl,
          ih hl]
      rw [hstep]
      by_cases hax : leByPri a x
      · rw [show insLast x (a :: l) = a :: insLast x l by simp [insLast, hax]]
        cases l with
        | nil => simp [insLast, List.orderedInsert, hax]
        | cons b l2 =>
            have hab : leByPri a b := ha b (by simp)
            by_cases hbx : leByPri b x
            · simp [insLast, hbx, List.orderedInsert, hab]
            · simp [insLast, hbx, List.orderedInsert, hax]
      · rw [show insLast x (a :: l) = x :: a :: l by simp [insLast, hax]]
        have hxl : insLast x l = x :: l := by
          cases l with
          | nil => rfl
          | cons b l2 =>
              have hab : leByPri a b := ha b (by simp)
              have hbx : ¬leByPri b x := fun hbx => hax (le_trans hbx hab)
              simp [insLast, hbx]
        rw [hxl]
        cases l with
        | nil => simp [List.orderedInsert, hax]
        | cons b l2 =>
            have hab : leByPri a b := ha b (by simp)
            simp [List.orderedInsert, hax, hab]

theorem pairwise_insLast (p : Int) (n : Nat) :
    ∀ l : List Listener, l.Pairwise ordL → (∀ x ∈ l, x.reg < n) →
      (insLast ⟨p, n⟩ l).Pairwise ordL := by
  intro l
  induction l with
  | nil => intro _ _; simp [insLast]
  | cons y ys ih =>
      intro hp hn
      rw [List.pairwise_cons] at hp
      obtain ⟨hy, hys⟩ := hp
      by_cases h : leByPri y ⟨p, n⟩
      · rw [show insLast ⟨p, n⟩ (y :: ys) = y :: insLast ⟨p, n⟩ ys by
          simp [insLast, h]]
        rw [List.pairwise_cons]
        refine ⟨?_, ih hys (fun x hx => hn x (by simp [hx]))⟩
        intro z hz
        rcases (mem_insLast _ z ys).mp hz with rfl | hz2
        · have hyn : y.reg < n := hn y (by simp)
          simp only [leByPri] at h
          simp only [ordL]
          rcases lt_or_eq_of_le h with hlt | heq
          · exact Or.inl hlt
          · exact Or.inr ⟨heq.symm, hyn⟩
        · exact hy z hz2
      · rw [show insLast ⟨p, n⟩ (y :: ys) = ⟨p, n⟩ :: y :: ys by
          simp [insLast, h]]
        rw [List.pairwise_cons]
        refine ⟨?_, List.pairwise_cons.mpr ⟨hy, hys⟩⟩
        intro z hz
        simp only [leByPri, not_le] at h
        rcases List.mem_cons.mp hz with rfl | hz2
        · exact Or.inl h
        · have hyz := hy z hz2
          simp only [ordL] at hyz ⊢
          left
          rcases hyz with hlt | ⟨heq, _⟩
          · exact lt_trans hlt h
          · rw [← heq]; exact h

theorem build_inv :
    ∀ (ps : List Int) (i : Nat) (acc : List Listener),
      acc.Pairwise ordL → (∀ x ∈ acc, x.reg < i) →
      (build i acc ps).Pairwise ordL ∧
        ∀ x ∈ build i acc ps, x.reg < i + ps.length := by
  intro ps
  induction ps with
  | nil =>
      intro i acc h1 h2
      exact ⟨h1, by simpa [build] using h2⟩
  | cons p ps ih =>
      intro i acc h1 h2
      have hle : acc.Pairwise leByPri := h1.imp ordL_imp_le
      have hOn : onEvent acc ⟨p, i⟩ = insLast ⟨p, i⟩ acc :=
        pySort_sorted_append _ acc hle
      have h1b : (onEvent acc ⟨p, i⟩).Pairwise ordL := by
        rw [hOn]; exact pairwise_insLast p i acc h1 h2
      have h2b : ∀ x ∈ onEvent acc ⟨p, i⟩, x.reg < i + 1 := by
        rw [hOn]
        intro x hx
        rcases (mem_insLast _ x acc).mp hx with rfl | hx2
        · simp
        · exact Nat.lt_succ_of_lt (h2 x hx2)
      have hres := ih (i + 1) (onEvent acc ⟨p, i⟩) h1b h2b
      refine ⟨hres.1, ?_⟩
      intro x hx
      have := hres.2 x hx
      simp only [List.length_cons]
      omega

theorem build_perm :
    ∀ (ps : List Int) (i : Nat) (acc : List Listener),
      build i acc ps ~ acc ++ annotate i ps := by
  intro ps
  induction ps with
  | nil => intro i acc; simp [build, annotate]
  | cons p ps ih =>
      intro i acc
      have h3 : onEvent acc ⟨p, i⟩ ~ acc ++ [⟨p, i⟩] :=
        List.perm_insertionSort leByPri _
      calc build i acc (p :: ps)
          ~ onEvent acc ⟨p, i⟩ ++ annotate (i + 1) ps := ih (i + 1) _
        _ ~ (acc ++ [⟨p, i⟩]) ++ annotate (i + 1) ps := h3.append_right _
        _ = acc ++ annotate i (p :: ps) := by simp [annotate]

theorem annotate_append :
    ∀ (a b : List Int) (i : Nat),
      annotate i (a ++ b) = annotate i a ++ annotate (i + a.length) b := by
  intro a
  induction a with
  | nil => intro b i; simp [annotate]
  | cons p ps ih =>
      intro b i
      have harith : i + 1 + ps.length = i + (ps.length + 1) := by omega
      simp only [List.cons_append, annotate, List.length_cons, List.append_eq]
      rw [ih b (i + 1), harith]

theorem mem_annotate_lt :
    ∀ (ps : List Int) (i : Nat) (x : Listener),
      x ∈ annotate i ps → x.reg < i + ps.length := by
  intro ps
  induction ps with
  | nil => intro i x hx; simp [annotate] at hx
  | cons p ps ih =>
      intro i x hx
      simp only [annotate, List.mem_cons] at hx
      rcases hx with rfl | hx
      · simp only [List.length_cons]; omega
      · have := ih (i + 1) x hx
        simp only [List.length_cons]
        omega

/-- C3: the spec demands that schedule(entity, interval) reject a non-positive
interval at schedule time; the source performs no such check — it sets the
flag and appends the task unconditionally — and the catch-up while-loop of
SchedulerSystem.update then never terminates for that task: with interval 0
and five seconds accumulated, no amount of loop iterations (fuel) makes the
loop exit. -/
theorem C3_schedule_accepts_nonpositive_interval_and_loops :
    (∀ st : Sched, (schedule st 7 0).tasks = st.tasks ++ [⟨7, 0, 0⟩]) ∧
      ∀ fuel : Nat, catchUp fuel 0 5 = none := by
  refine ⟨fun st => rfl, fun fuel => ?_⟩
  induction fuel with
  | zero => simp [catchUp]
  | succ n ih =>
      have h5 : ¬((5 : ℚ) < 0) := by norm_num
      simp only [catchUp, h5, if_false]
      norm_num [ih]

/-- C4: unscheduling a node that was scheduled twice does not remove its tasks
and return normally; the deletion loop uses indices taken from a snapshot of
the task list while deleting from the shrinking live list, so with two
adjacent tasks for node 7 the second deletion is out of range (IndexError,
modelled as `none`), and with tasks [7, 7, 8] the loop instead returns
normally but deletes the task of the unrelated node 8, leaving a task for
node 7 behind. -/
theorem C4_unschedule_fails_on_duplicate_tasks :
    unschedule ⟨[⟨7, 1, 0⟩, ⟨7, 1, 0⟩], [(7, true)]⟩ 7 = none ∧
      unschedLoop 7 [⟨7, 1, 0⟩, ⟨7, 1, 0⟩, ⟨8, 1, 0⟩] 0
          [⟨7, 1, 0⟩, ⟨7, 1, 0⟩, ⟨8, 1, 0⟩]
        = some [⟨7, 1, 0⟩] := by
  exact ⟨rfl, rfl⟩

/-- C7: after schedule(e, 2.0), one call of the Scheduler update with dt = 5.0
calls the update of e exactly twice, each time with time delta exactly 2.0,
and leaves exactly 1.0 in the accumulator of that task. -/
theorem C7_scheduler_catchup_five_over_two :
    schedUpdate 10 5 (schedule ⟨[], []⟩ 5 2).tasks
      = some ([⟨5, 2, 1⟩], [(5, 2), (5, 2)]) := by
  norm_num [schedUpdate, schedule, catchUp, List.replicate]

/-- C8: attaching a child c that is currently listed under p1 to another node
p2 sets the parent reference of c to p2 and appends c to the children of p2,
while the children sequence of p1 is left unchanged and still contains c — the
source performs no automatic detach from the former parent. -/
theorem C8_add_child_no_auto_detach (st : TreeSt) (p1 p2 c : Nat)
    (hmem : c ∈ kidsOf st p1) (hne : p1 ≠ p2) :
    lookupA (addChild st p2 c).parent c = some p2 ∧
      kidsOf (addChild st p2 c) p2 = kidsOf st p2 ++ [c] ∧
      kidsOf (addChild st p2 c) p1 = kidsOf st p1 ∧
      c ∈ kidsOf (addChild st p2 c) p1 := by
  refine ⟨?_, ?_, ?_, ?_⟩
  · exact lookupA_setA_self st.parent c p2
  · simp [addChild, kidsOf, lookupA_setA_self]
  · simp [addChild, kidsOf, lookupA_setA_other st.childrenOf p2 p1 _ (fun h => hne h.symm)]
  · simpa [addChild, kidsOf,
      lookupA_setA_other st.childrenOf p2 p1 _ (fun h => hne h.symm)] using hmem

/-- Witness for C8 at a concrete state: node 9 is a child of node 1 and is
then attached to node 2. -/
theorem C8_add_child_no_auto_detach_witness :
    lookupA (addChild ⟨[(9, 1)], [(1, [9])], []⟩ 2 9).parent 9 = some 2 ∧
      kidsOf (addChild ⟨[(9, 1)], [(1, [9])], []⟩ 2 9) 2
          = kidsOf ⟨[(9, 1)], [(1, [9])], []⟩ 2 ++ [9] ∧
      kidsOf (addChild ⟨[(9, 1)], [(1, [9])], []⟩ 2 9) 1
          = kidsOf ⟨[(9, 1)], [(1, [9])], []⟩ 1 ∧
      9 ∈ kidsOf (addChild ⟨[(9, 1)], [(1, [9])], []⟩ 2 9) 1 :=
  C8_add_child_no_auto_detach ⟨[(9, 1)], [(1, [9])], []⟩ 1 2 9
    (by decide) (by decide)

theorem idsOf_eq (t : SimT) : idsOf t = t.id :: idsOfList t.kids := by
  cases t
  rfl

theorem idsOfList_append :
    ∀ l1 l2 : List SimT, idsOfList (l1 ++ l2) = idsOfList l1 ++ idsOfList l2 := by
  intro l1
  induction l1 with
  | nil => intro l2; simp [idsOfList]
  | cons t ts ih => intro l2; simp [idsOfList, ih]

theorem emitDownList_append (o : Nat) :
    ∀ l1 l2 : List SimT,
      emitDownList o (l1 ++ l2) = emitDownList o l1 ++ emitDownList o l2 := by
  intro l1
  induction l1 with
  | nil => intro l2; simp [emitDownList]
  | cons t ts ih => intro l2; simp [emitDownList, ih]

mutual
theorem emitDown_of_not_mem (o : Nat) (t : SimT) (h : o ∉ idsOf t) :
    emitDown o t = idsOf t := by
  cases t with
  | mk i m kids =>
      have hi : i ≠ o := by
        intro he
        exact h (by simp [idsOf, he])
      have hk : o ∉ idsOfList kids := by
        intro hm
        exact h (by simp [idsOf, hm])
      simp [emitDown, idsOf, hi, emitDownList_of_not_mem o kids hk]
theorem emitDownList_of_not_mem (o : Nat) (l : List SimT) (h : o ∉ idsOfList l) :
    emitDownList o l = idsOfList l := by
  cases l with
  | nil => rfl
  | cons t ts =>
      have h1 : o ∉ idsOf t := by
        intro hm
        exact h (by simp [idsOfList, hm])
      have h2 : o ∉ idsOfList ts := by
        intro hm
        exact h (by simp [idsOfList, hm])
      simp [idsOfList, emitDownList, emitDown_of_not_mem o t h1,
        emitDownList_of_not_mem o ts h2]
end

mutual
theorem not_mem_emitDown (o : Nat) (t : SimT) : o ∉ emitDown o t := by
  cases t with
  | mk i m kids =>
      by_cases hi : i = o
      · simp [emitDown, hi]
      · simp only [emitDown, if_neg hi, List.mem_cons, not_or]
        exact ⟨fun h => hi h.symm, not_mem_emitDownList o kids⟩
theorem not_mem_emitDownList (o : Nat) (l : List SimT) : o ∉ emitDownList o l := by
  cases l with
  | nil => simp [emitDownList]
  | cons t ts =>
      simp only [emitDownList, List.mem_append, not_or]
      exact ⟨not_mem_emitDown o t, not_mem_emitDownList o ts⟩
end

theorem idsOf_sublist_plug :
    ∀ (fs : List Frame) (t : SimT), idsOf t <+ idsOf (plug t fs) := by
  intro fs
  induction fs with
  | nil => intro t; simp [plug]
  | cons f fs ih =>
      intro t
      have h1 : idsOf t
          <+ idsOf (SimT.mk f.aid f.amanual (f.before ++ t :: f.after)) := by
        simp only [idsOf, idsOfList_append, idsOfList]
        exact ((List.sublist_append_left _ _).trans
          (List.sublist_append_right _ _)).cons _
      exact h1.trans (ih _)

theorem frame_nodup_parts (o : Nat) (f : Frame) (s : SimT)
    (h : (idsOf (SimT.mk f.aid f.amanual (f.before ++ s :: f.after))).Nodup)
    (ho : o ∈ idsOf s) :
    o ≠ f.aid ∧ o ∉ idsOfList f.before ∧ o ∉ idsOfList f.after := by
  simp only [idsOf, idsOfList_append, idsOfList] at h
  rw [List.nodup_cons] at h
  obtain ⟨h1, h2⟩ := h
  rw [List.nodup_append] at h2
  obtain ⟨_, h3, hdisj⟩ := h2
  rw [List.nodup_append] at h3
  obtain ⟨_, _, hdisj2⟩ := h3
  refine ⟨?_, ?_, ?_⟩
  · intro he
    rw [← he] at h1
    exact h1 (List.mem_append_right _ (List.mem_append_left _ ho))
  · intro hb
    exact hdisj hb (List.mem_append_left _ ho)
  · intro ha
    exact hdisj2 ho ha

theorem upPhase_cover (o : Nat) :
    ∀ (fs : List Frame) (s : SimT), o ∈ idsOf s → (idsOf (plug s fs)).Nodup →
      (∀ i ∈ idsOf (plug s fs), i ∈ idsOf s ∨ i ∈ upPhase o s fs) ∧
        o ∉ upPhase o s fs := by
  intro fs
  induction fs with
  | nil =>
      intro s ho h
      exact ⟨fun i hi => Or.inl (by simpa [plug] using hi), by simp [upPhase]⟩
  | cons f fs ih =>
      intro s ho h
      have hplug : plug s (f :: fs)
          = plug (SimT.mk f.aid f.amanual (f.before ++ s :: f.after)) fs := rfl
      rw [hplug] at h
      have hos2 : o ∈ idsOf (SimT.mk f.aid f.amanual (f.before ++ s :: f.after)) := by
        simp only [idsOf, idsOfList_append, idsOfList, List.mem_cons,
          List.mem_append]
        exact Or.inr (Or.inr (Or.inl ho))
      have hn2 : (idsOf (SimT.mk f.aid f.amanual (f.before ++ s :: f.after))).Nodup :=
        List.Nodup.sublist (idsOf_sublist_plug fs _) h
      obtain ⟨hne, hnb, hna⟩ := frame_nodup_parts o f s hn2 ho
      have IH := ih (SimT.mk f.aid f.amanual (f.before ++ s :: f.after)) hos2 h
      have hedl : emitDownList o (f.before ++ s :: f.after)
          = idsOfList f.before ++ (emitDown o s ++ emitDownList o f.after) := by
        rw [emitDownList_append]
        simp only [emitDownList]
        rw [emitDownList_of_not_mem o f.before hnb]
      constructor
      · intro i hi
        rcases IH.1 i hi with hi2 | hi2
        · simp only [idsOf, idsOfList_append, idsOfList, List.mem_cons,
            List.mem_append] at hi2
          simp only [upPhase, List.mem_append, List.mem_cons]
          rcases hi2 with rfl | hi3 | hi3 | hi3
          · exact Or.inr (Or.inl (Or.inl rfl))
          · refine Or.inr (Or.inl (Or.inr ?_))
            rw [hedl]
            exact List.mem_append_left _ hi3
          · exact Or.inl hi3
          · refine Or.inr (Or.inl (Or.inr ?_))
            rw [hedl, emitDownList_of_not_mem o f.after hna]
            exact List.mem_append_right _ (List.mem_append_right _ hi3)
        · simp only [upPhase, List.mem_append, List.mem_cons]
          exact Or.inr (Or.inr hi2)
      · simp only [upPhase, List.mem_append, List.mem_cons, not_or]
        refine ⟨⟨hne, ?_⟩, IH.2⟩
        exact not_mem_emitDownList o _

/-- C1 (amended): an `Up` emission with no explicit origin from entity e of a
tree with distinct ids reaches every entity of the tree at least once, and
the emitter itself exactly once.  The exactly-once part of the original claim
fails for other entities as soon as the tree extends two levels above the
emitter, because each ancestor excludes only the original emitter — not the
branch already visited — from its downward fan-out (see the counterexample). -/
theorem C1_up_emission_reaches_all (e : SimT) (ctx : List Frame)
    (h : (idsOf (plug e ctx)).Nodup) :
    (∀ i ∈ idsOf (plug e ctx), i ∈ emitUpVisits e ctx) ∧
      (emitUpVisits e ctx).count e.id = 1 := by
  have hsub := idsOf_sublist_plug ctx e
  have hne : (idsOf e).Nodup := List.Nodup.sublist hsub h
  have hoe : e.id ∈ idsOf e := by
    rw [idsOf_eq]
    exact List.mem_cons_self _ _
  have hkid : e.id ∉ idsOfList e.kids := by
    rw [idsOf_eq] at hne
    exact (List.nodup_cons.mp hne).1
  have hdl : emitDownList e.id e.kids = idsOfList e.kids :=
    emitDownList_of_not_mem _ _ hkid
  have U := upPhase_cover e.id ctx e hoe h
  constructor
  · intro i hi
    simp only [emitUpVisits, List.mem_append, List.mem_cons]
    rcases U.1 i hi with h1 | h1
    · rw [idsOf_eq] at h1
      rcases List.mem_cons.mp h1 with h2 | h2
      · exact Or.inl (Or.inl h2)
      · exact Or.inl (Or.inr (by rw [hdl]; exact h2))
    · exact Or.inr h1
  · simp only [emitUpVisits, List.count_append]
    have h2 : (upPhase e.id e ctx).count e.id = 0 := List.count_eq_zero.mpr U.2
    have h3 : (emitDownList e.id e.kids).count e.id = 0 := by
      rw [hdl]
      exact List.count_eq_zero.mpr hkid
    rw [h2, List.count_cons_self, h3]

/-- Witness for C1 at the example tree of the spec: root 0 with children 1
and 2, node 1 with child 3, emitting upward from node 1. -/
theorem C1_up_emission_reaches_all_witness :
    (∀ i ∈ idsOf (plug (SimT.mk 1 false [SimT.mk 3 false []])
        [⟨0, false, [], [SimT.mk 2 false []]⟩]),
      i ∈ emitUpVisits (SimT.mk 1 false [SimT.mk 3 false []])
        [⟨0, false, [], [SimT.mk 2 false []]⟩]) ∧
      (emitUpVisits (SimT.mk 1 false [SimT.mk 3 false []])
        [⟨0, false, [], [SimT.mk 2 false []]⟩]).count
          (SimT.mk 1 false [SimT.mk 3 false []]).id = 1 :=
  C1_up_emission_reaches_all (SimT.mk 1 false [SimT.mk 3 false []])
    [⟨0, false, [], [SimT.mk 2 false []]⟩]
    (by simp [plug, idsOf, idsOfList])

/-- C1 counterexample to the claim as stated: in the chain tree root 0 with
single child 1, which has single child 2 (distinct ids, a legitimate tree),
the upward emission from node 2 visits node 1 twice — once on the up walk and
once more inside the downward fan-out of the root, which excludes only the
emitter 2 — contradicting delivery to every entity exactly once. -/
theorem C1_up_emission_counterexample :
    (idsOf (plug (SimT.mk 2 false [])
        [⟨1, false, [], []⟩, ⟨0, false, [], []⟩])).Nodup ∧
      1 ∈ idsOf (plug (SimT.mk 2 false [])
        [⟨1, false, [], []⟩, ⟨0, false, [], []⟩]) ∧
      (emitUpVisits (SimT.mk 2 false [])
        [⟨1, false, [], []⟩, ⟨0, false, [], []⟩]).count 1 = 2 := by
  refine ⟨by simp [plug, idsOf, idsOfList], by simp [plug, idsOf, idsOfList], ?_⟩
  simp [emitUpVisits, upPhase, emitDownList, emitDown, SimT.id, SimT.kids,
    List.count_cons]

theorem updateVisits_eq (t : SimT) : updateVisits t = updList t.kids := by
  cases t
  rfl

mutual
theorem updateVisits_sublist (t : SimT) : updateVisits t <+ idsOfList t.kids := by
  cases t with
  | mk i m kids => exact updList_sublist kids
theorem updList_sublist (l : List SimT) : updList l <+ idsOfList l := by
  cases l with
  | nil => simp [updList, idsOfList]
  | cons c cs =>
      simp only [updList, idsOfList]
      refine List.Sublist.append ?_ (updList_sublist cs)
      cases hm : c.manual with
      | true => simp
      | false =>
          simp only [Bool.false_eq_true, if_false]
          rw [idsOf_eq]
          exact List.Sublist.cons₂ _ (updateVisits_sublist c)
end

theorem updList_mem (l : List SimT) (c : SimT) (hc : c ∈ l) (hm : c.manual = false) :
    c.id ∈ updList l ∧ ∀ j ∈ updateVisits c, j ∈ updList l := by
  induction l with
  | nil => cases hc
  | cons d ds ih =>
      rcases List.mem_cons.mp hc with rfl | hc2
      · constructor
        · simp [updList, hm]
        · intro j hj
          simp only [updList, hm, Bool.false_eq_true, if_false, List.mem_append,
            List.mem_cons]
          exact Or.inl (Or.inr hj)
      · have hres := ih hc2
        constructor
        · simp only [updList, List.mem_append]
          exact Or.inr hres.1
        · intro j hj
          simp only [updList, List.mem_append]
          exact Or.inr (hres.2 j hj)

theorem autoDesc_visits (t d : SimT) (h : AutoDesc t d) :
    d.id ∈ updateVisits t ∧ ∀ j ∈ updateVisits d, j ∈ updateVisits t := by
  induction h with
  | head d1 hd hm =>
      have hres := updList_mem t.kids d1 hd hm
      rw [updateVisits_eq]
      exact hres
  | tail u d1 hu hd hm ih =>
      have h2 := updList_mem u.kids d1 hd hm
      constructor
      · exact ih.2 d1.id (by rw [updateVisits_eq]; exact h2.1)
      · intro j hj
        exact ih.2 j (by rw [updateVisits_eq]; exact h2.2 j hj)

theorem autoDesc_lift (t c d : SimT) (hc : c ∈ t.kids) (hm : c.manual = false)
    (h : AutoDesc c d) : AutoDesc t d := by
  induction h with
  | head d1 hd1 hm1 =>
      exact AutoDesc.tail t c d1 (AutoDesc.head t c hc hm) hd1 hm1
  | tail u d1 hu hd1 hm1 ih =>
      exact AutoDesc.tail t u d1 ih hd1 hm1

mutual
theorem updateVisits_src (t : SimT) (i : Nat) (h : i ∈ updateVisits t) :
    ∃ d, AutoDesc t d ∧ d.id = i := by
  cases t with
  | mk a m kids =>
      have h2 : i ∈ updList kids := h
      obtain ⟨c, hc, hm2, h3⟩ := updList_src kids i h2
      rcases h3 with hci | ⟨d, hd, hdi⟩
      · exact ⟨c, AutoDesc.head _ c hc hm2, hci⟩
      · exact ⟨d, autoDesc_lift _ c d hc hm2 hd, hdi⟩
theorem updList_src (l : List SimT) (i : Nat) (h : i ∈ updList l) :
    ∃ c, c ∈ l ∧ c.manual = false ∧
      (c.id = i ∨ ∃ d, AutoDesc c d ∧ d.id = i) := by
  cases l with
  | nil => simp [updList] at h
  | cons c cs =>
      have h2 : i ∈ (if c.manual then [] else c.id :: updateVisits c) ++ updList cs := h
      rcases List.mem_append.mp h2 with h3 | h3
      · cases hm : c.manual with
        | true =>
            rw [hm] at h3
            simp at h3
        | false =>
            rw [hm] at h3
            simp only [Bool.false_eq_true, if_false, List.mem_cons] at h3
            rcases h3 with rfl | h4
            · exact ⟨c, List.mem_cons_self c cs, hm, Or.inl rfl⟩
            · obtain ⟨d, hd, hdi⟩ := updateVisits_src c i h4
              exact ⟨c, List.mem_cons_self c cs, hm, Or.inr ⟨d, hd, hdi⟩⟩
      · obtain ⟨c2, hc2, hm2, hrest⟩ := updList_src cs i h3
        exact ⟨c2, List.mem_cons_of_mem c hc2, hm2, hrest⟩
end

/-- C2 (amended): for a tree with distinct ids, update visits exactly the
descendants reachable from the root through a path of nodes all lacking the
manual-update flag — a flagged child is skipped together with its entire
subtree, so an unflagged descendant below a flagged intermediate node is not
visited (see the counterexample) — and each visited node is visited exactly
once (the visit list has no duplicates). -/
theorem C2_update_visits_clean_descendants (t : SimT) (h : (idsOf t).Nodup) :
    (∀ i, i ∈ updateVisits t ↔ ∃ d, AutoDesc t d ∧ d.id = i) ∧
      (updateVisits t).Nodup := by
  constructor
  · intro i
    constructor
    · exact updateVisits_src t i
    · rintro ⟨d, hd, rfl⟩
      exact (autoDesc_visits t d hd).1
  · have hsub : updateVisits t <+ idsOf t := by
      rw [idsOf_eq]
      exact (updateVisits_sublist t).cons _
    exact List.Nodup.sublist hsub h

/-- Witness for C2 at a concrete tree: root 0 with unflagged child 1 and
flagged child 2. -/
theorem C2_update_visits_clean_descendants_witness :
    (∀ i, i ∈ updateVisits (SimT.mk 0 false [SimT.mk 1 false [], SimT.mk 2 true []])
        ↔ ∃ d, AutoDesc (SimT.mk 0 false [SimT.mk 1 false [], SimT.mk 2 true []]) d
            ∧ d.id = i) ∧
      (updateVisits (SimT.mk 0 false [SimT.mk 1 false [], SimT.mk 2 true []])).Nodup :=
  C2_update_visits_clean_descendants
    (SimT.mk 0 false [SimT.mk 1 false [], SimT.mk 2 true []])
    (by simp [idsOf, idsOfList])

/-- C2 counterexample to the claim as stated: in the tree root 0, flagged
child 1, unflagged grandchild 2 (distinct ids), node 2 is a descendant of the
root without the manual-update flag, yet update on the root visits nothing at
all — the flagged intermediate node cuts off its whole subtree. -/
theorem C2_flagged_intermediate_counterexample :
    Desc (SimT.mk 0 false [SimT.mk 1 true [SimT.mk 2 false []]])
        (SimT.mk 2 false []) ∧
      (SimT.mk 2 false []).manual = false ∧
      (idsOf (SimT.mk 0 false [SimT.mk 1 true [SimT.mk 2 false []]])).Nodup ∧
      updateVisits (SimT.mk 0 false [SimT.mk 1 true [SimT.mk 2 false []]]) = [] := by
  refine ⟨?_, rfl, by simp [idsOf, idsOfList], by simp [updateVisits, updList, SimT.manual]⟩
  exact Desc.tail _ (SimT.mk 1 true [SimT.mk 2 false []]) _
    (Desc.head _ _ (by simp [SimT.kids])) (by simp [SimT.kids])

/-- C5: for every sequence of registered priorities the subscription list is
ordered by priority descending with equal priorities kept in registration
order (Pairwise ordL over priority/registration pairs), a local dispatch
invokes exactly that list in that order, and one further registration of any
priority — in particular a lower one — leaves the relative order of the
already-registered handlers unchanged: filtering the new entry out of the new
list returns the old list verbatim. -/
theorem C5_priority_order_stable (regs : List Int) (p : Int)
    (beh : Nat → List LAct) (ev : Nat) :
    (buildState regs).Pairwise ordL ∧
      (dispatch beh [(ev, buildState regs)] ev).2
        = (buildState regs).map Listener.reg ∧
      (buildState (regs ++ [p])).filter (fun x => decide (x.reg < regs.length))
        = buildState regs := by
  have hinv := build_inv regs 0 [] (by simp) (by simp)
  have hinv2 := build_inv (regs ++ [p]) 0 [] (by simp) (by simp)
  refine ⟨hinv.1, ?_, ?_⟩
  · unfold dispatch
    have hl : lookupA [(ev, buildState regs)] ev = some (buildState regs) := by
      simp [lookupA]
    rw [hl]
    exact dispatchGo_invokes_snapshot beh _ _
  · have hb2 : List.Perm (buildState (regs ++ [p])) (annotate 0 (regs ++ [p])) := by
      simpa [buildState] using build_perm (regs ++ [p]) 0 []
    have hb1 : List.Perm (buildState regs) (annotate 0 regs) := by
      simpa [buildState] using build_perm regs 0 []
    have hann : annotate 0 (regs ++ [p])
        = annotate 0 regs ++ [⟨p, regs.length⟩] := by
      rw [annotate_append regs [p] 0]
      simp [annotate]
    have hfil1 : (annotate 0 regs).filter (fun x => decide (x.reg < regs.length))
        = annotate 0 regs := by
      rw [List.filter_eq_self]
      intro a ha
      have := mem_annotate_lt regs 0 a ha
      simpa using this
    have hperm : List.Perm
        ((buildState (regs ++ [p])).filter (fun x => decide (x.reg < regs.length)))
        (buildState regs) := by
      refine ((hb2.filter (fun x => decide (x.reg < regs.length))).trans ?_).trans
        hb1.symm
      rw [hann, List.filter_append, hfil1]
      simp
    exact List.eq_of_perm_of_sorted hperm
      (List.Pairwise.sublist (List.filter_sublist _) hinv2.1) hinv.1

/-- C6 counterexample to the claim as stated: in the world where node 0 has
the single child 1, a clean parent reference from 1 and a dirty mark from
that attach, and node 0 carries a handler that attaches the fresh node 2 to
node 0, a single top-level emit at node 0 visits 0, 1 and 2 — node 2 was
attached during the traversal of its parent 0 (by the local handler of 0,
which runs before the fan-out takes its children snapshot) and is visited in
the same pass, so the mutation is visible mid-walk, not deferred to the next
top-level call. -/
theorem C6_attach_during_traversal_counterexample :
    lookupA (EWorld.mk [(1, 0)] [(0, [1])] [] [0]
        [(0, [EAct.attach 0 2])]).childrenOf 0 = some [1] ∧
      (emitE 9 (EWorld.mk [(1, 0)] [(0, [1])] [] [0]
          [(0, [EAct.attach 0 2])]) 0 .down none).map (fun r => r.2)
        = some [0, 1, 2] := by
  exact ⟨rfl, by decide⟩

/-- C6 (amended): an attach performed by a handler is deferred only relative
to children iterations that are already in progress — every fan-out loop
iterates the snapshot it took when it began — and takes effect at the next
children iteration of the mutated node, possibly within the same top-level
pass.  Concretely: when the handler sits on child 1 and attaches node 2 to
the parent 0 while the fan-out of 0 is underway, the pass visits only 0 and
1, and the next top-level emit visits 0, 1 and 2 (whereas an attach by the
local handler of 0 itself, which runs before the snapshot is taken, is
visible in the same pass — see the counterexample). -/
theorem C6_attach_deferred_to_next_iteration :
    (emitE 9 (EWorld.mk [(1, 0)] [(0, [1])] [] [0]
        [(1, [EAct.attach 0 2])]) 0 .down none).map (fun r => r.2)
      = some [0, 1] ∧
      (emitE 9 (EWorld.mk [(1, 0)] [(0, [1])] [] [0]
          [(1, [EAct.attach 0 2])]) 0 .down none).bind
        (fun r => (emitE 9 r.1 0 .down none).map (fun s => s.2))
      = some [0, 1, 2] := by
  exact ⟨rfl, rfl⟩

/-- C9: the handlers invoked during one local dispatch of emit are exactly
those in the subscription list of the entity at the moment the dispatch
begins — the loop iterates a snapshot copy, so subscribe and unsubscribe
calls performed by the handlers themselves never change the set or order of
invocations of the dispatch in progress, whatever the handler bodies are. -/
theorem C9_dispatch_uses_snapshot (beh : Nat → List LAct)
    (m : List (Nat × List Listener)) (ev : Nat) :
    (dispatch beh m ev).2 = ((lookupA m ev).getD []).map Listener.reg := by
  unfold dispatch
  exact dispatchGo_invokes_snapshot beh ((lookupA m ev).getD []) m

/-- C10: off_event for a handler that is not registered under the event name
— including when no subscription list exists for that name at all — leaves
the whole listener map unchanged (and, being total, raises nothing). -/
theorem C10_off_event_absent_is_noop (m : List (Nat × List Listener))
    (ev hid : Nat) (h : ∀ l ∈ (lookupA m ev).getD [], l.reg ≠ hid) :
    offEvent m ev hid = m := by
  unfold offEvent
  cases hm : lookupA m ev with
  | none => rfl
  | some hs =>
      by_cases hnil : hs = []
      · simp [hnil]
      · have hsnap : ∀ l ∈ hs, l.reg ≠ hid := by
          intro l hl
          exact h l (by simp [hm]; exact hl)
        simp only [hnil, if_false]
        rw [removeFirst_of_absent hid hs hsnap]
        exact setA_lookupA_eq m ev hs hm

/-- Witness for C10: a map binding event 3 to one listener with handler id 1;
unregistering handler id 2 from event 3, and from the absent event 4, does
nothing. -/
theorem C10_off_event_absent_is_noop_witness :
    offEvent [(3, [⟨0, 1⟩])] 3 2 = [(3, [⟨0, 1⟩])] ∧
      offEvent [(3, [⟨0, 1⟩])] 4 2 = [(3, [⟨0, 1⟩])] :=
  ⟨C10_off_event_absent_is_noop [(3, [⟨0, 1⟩])] 3 2 (by decide),
   C10_off_event_absent_is_noop [(3, [⟨0, 1⟩])] 4 2 (by decide)⟩

end Nodari
